import Mathlib

/-
Verification of the CryptoPriceBot alert engine.

The development shallowly embeds the subscription registry (alerts.py),
the persistence layer (user_storage.py) and the poll-cycle algorithm
of check_prices (alerts.py) into Lean.  Python dictionaries are
modelled as association lists with insertion-order semantics; Python
floats are modelled by exact rationals; the batched price fetch of
crypto_api.get_multiple_prices is an explicit function parameter whose
whole-batch failure mode is the empty result map, exactly as the
Python function returns an empty dict from its exception handler.
-/

namespace CryptoBot

/-- Association-list lookup, modelling a Python dict read d.get(k):
returns the value at the first (hence unique, for dict-shaped lists)
occurrence of the key. -/
def alookup {α β : Type} [DecidableEq α] : List (α × β) → α → Option β
  | [], _ => none
  | (k, v) :: t, a => if k = a then some v else alookup t a

/-- Association-list update, modelling the Python dict assignment d[k] = v:
replaces the value at an existing key in place and appends a fresh key at
the end, matching dict insertion order. -/
def aupsert {α β : Type} [DecidableEq α] : List (α × β) → α → β → List (α × β)
  | [], a, b => [(a, b)]
  | (k, v) :: t, a, b => if k = a then (k, b) :: t else (k, v) :: aupsert t a b

/-- Association-list deletion, modelling the Python statement del d[k]. -/
def aerase {α β : Type} [DecidableEq α] : List (α × β) → α → List (α × β)
  | [], _ => []
  | (k, v) :: t, a => if k = a then t else (k, v) :: aerase t a

/-- Keys of an association list are pairwise distinct, the invariant every
Python dict guarantees for the tables of the persisted JSON document. -/
def keysNodup {α β : Type} [DecidableEq α] (l : List (α × β)) : Prop :=
  (l.map Prod.fst).Nodup

/-- Persisted JSON document of user_storage.py: the four logical tables of
the single user_data.json file.  Per-user keys are written as str(chat_id)
and parsed back with int(k) by the load functions; since both conversions
are mutually inverse on the canonically written keys, the keys are
modelled directly as integers.  The metadata timestamp block carries no
table content and is omitted. -/
structure StoreDoc where
  subscribers : List Int
  user_alert_thresholds : List (Int × ℚ)
  user_coin_subscriptions : List (Int × List String)
  last_prices : List (String × ℚ)
deriving DecidableEq

/-- UserStorage.save_subscribers: whole-table replacement of the
subscribers list inside the document. -/
def save_subscribers (subs : List Int) (d : StoreDoc) : StoreDoc :=
  { d with subscribers := subs }

/-- UserStorage.load_subscribers. -/
def load_subscribers (d : StoreDoc) : List Int :=
  d.subscribers

/-- UserStorage.save_user_threshold: per-entry upsert into the
user_alert_thresholds table of the document. -/
def save_user_threshold (u : Int) (t : ℚ) (d : StoreDoc) : StoreDoc :=
  { d with user_alert_thresholds := aupsert d.user_alert_thresholds u t }

/-- UserStorage.load_user_thresholds. -/
def load_user_thresholds (d : StoreDoc) : List (Int × ℚ) :=
  d.user_alert_thresholds

/-- UserStorage.save_user_coin_subscriptions: per-entry upsert into the
user_coin_subscriptions table of the document. -/
def save_user_coin_subscriptions (u : Int) (cs : List String) (d : StoreDoc) : StoreDoc :=
  { d with user_coin_subscriptions := aupsert d.user_coin_subscriptions u cs }

/-- UserStorage.load_user_coin_subscriptions. -/
def load_user_coin_subscriptions (d : StoreDoc) : List (Int × List String) :=
  d.user_coin_subscriptions

/-- UserStorage.save_last_prices: whole-table replacement of the
last_prices table inside the document. -/
def save_last_prices (lp : List (String × ℚ)) (d : StoreDoc) : StoreDoc :=
  { d with last_prices := lp }

/-- UserStorage.load_last_prices. -/
def load_last_prices (d : StoreDoc) : List (String × ℚ) :=
  d.last_prices

/-- Persisting a whole thresholds table entry by entry through
save_user_threshold, the way UserStorage.restore_data and the
remove_subscriber resave loop do it. -/
def save_all_thresholds (ts : List (Int × ℚ)) (d : StoreDoc) : StoreDoc :=
  ts.foldl (fun acc p => save_user_threshold p.1 p.2 acc) d

/-- Persisting a whole coin-subscription table entry by entry through
save_user_coin_subscriptions, the way UserStorage.restore_data and the
remove_subscriber resave loop do it. -/
def save_all_coin_subscriptions (cs : List (Int × List String)) (d : StoreDoc) : StoreDoc :=
  cs.foldl (fun acc p => save_user_coin_subscriptions p.1 p.2 acc) d

/-- Combined program state of alerts.py: the module-level in-memory maps
subscribers, user_alert_thresholds and user_coin_subscriptions together
with the persisted document behind the storage singleton.  The in-memory
last_prices map is threaded separately through the poll cycle. -/
structure World where
  subscribers : List Int
  user_alert_thresholds : List (Int × ℚ)
  user_coin_subscriptions : List (Int × List String)
  doc : StoreDoc
deriving DecidableEq

/-- alerts.add_subscriber: append the chat id if new and persist the
subscribers table; report whether anything happened. -/
def add_subscriber (w : World) (u : Int) : Bool × World :=
  if u ∈ w.subscribers then (false, w)
  else
    let subs := w.subscribers ++ [u]
    (true, { w with subscribers := subs, doc := save_subscribers subs w.doc })

/-- alerts.set_user_alert_threshold: unconditionally set and persist the
threshold for the user; always returns true. -/
def set_user_alert_threshold (w : World) (u : Int) (t : ℚ) : Bool × World :=
  (true,
    { w with
      user_alert_thresholds := aupsert w.user_alert_thresholds u t,
      doc := save_user_threshold u t w.doc })

/-- alerts.add_coin_to_user_subscription: create an empty watch list for
an unknown user, then append the coin if it is not already watched and
persist that list; returns false without touching storage otherwise. -/
def add_coin_to_user_subscription (w : World) (u : Int) (c : String) : Bool × World :=
  let subs0 :=
    match alookup w.user_coin_subscriptions u with
    | none => aupsert w.user_coin_subscriptions u []
    | some _ => w.user_coin_subscriptions
  let cur := (alookup subs0 u).getD []
  if c ∈ cur then (false, { w with user_coin_subscriptions := subs0 })
  else
    let newList := cur ++ [c]
    (true,
      { w with
        user_coin_subscriptions := aupsert subs0 u newList,
        doc := save_user_coin_subscriptions u newList w.doc })

/-- alerts.remove_subscriber: drop the chat id from the in-memory
subscriber list and delete its in-memory threshold and coin entries,
then persist the subscribers table and resave the remaining threshold
and coin entries one by one. -/
def remove_subscriber (w : World) (u : Int) : Bool × World :=
  if u ∈ w.subscribers then
    let subs := w.subscribers.erase u
    let th :=
      if (alookup w.user_alert_thresholds u).isSome then
        aerase w.user_alert_thresholds u
      else w.user_alert_thresholds
    let cs :=
      if (alookup w.user_coin_subscriptions u).isSome then
        aerase w.user_coin_subscriptions u
      else w.user_coin_subscriptions
    let doc0 := save_subscribers subs w.doc
    let doc1 := save_all_thresholds th doc0
    let doc2 := save_all_coin_subscriptions cs doc1
    (true,
      { subscribers := subs, user_alert_thresholds := th,
        user_coin_subscriptions := cs, doc := doc2 })
  else (false, w)

/-- alerts.get_user_monitored_coins: the personal coin list of the user,
or the empty list when the user has no entry or an empty one (the Python
condition is a truthiness test on the stored list). -/
def get_user_monitored_coins (coinsubs : List (Int × List String)) (u : Int) : List String :=
  match alookup coinsubs u with
  | some l => if l = [] then [] else l
  | none => []

/-- Folding the coins of one user into the accumulated set of monitored
coins, modelling all_monitored_coins.update(user_coins) with a
deduplicating insertion-ordered list standing for the Python set. -/
def addMonitored (acc : List String) (l : List String) : List String :=
  l.foldl (fun a c => if c ∈ a then a else a ++ [c]) acc

/-- The union over all subscribers of their monitored coins, as computed
at the top of alerts.check_prices. -/
def monitored_coins (subscribers : List Int) (coinsubs : List (Int × List String)) :
    List String :=
  subscribers.foldl (fun acc u => addMonitored acc (get_user_monitored_coins coinsubs u)) []

/-- Effective alert threshold of a user: the custom value when present,
the configured ALERT_THRESHOLD default otherwise, as read by
user_alert_thresholds.get(chat_id, ALERT_THRESHOLD). -/
def effective_threshold (thresholds : List (Int × ℚ)) (dflt : ℚ) (u : Int) : ℚ :=
  (alookup thresholds u).getD dflt

/-- Notification event emitted by check_prices for one user and one coin:
the direction flag is up exactly when the current price strictly exceeds
the last one, and the change is abs((current - last) / last) * 100. -/
structure Event where
  user_id : Int
  coin_id : String
  up : Bool
  current_price : ℚ
  last_price : ℚ
  change_percent : ℚ
  threshold : ℚ
deriving DecidableEq

/-- The event check_prices sends for user u about a coin whose last and
current prices are l and cp. -/
def mkEvent (thresholds : List (Int × ℚ)) (dflt : ℚ) (u : Int) (coin : String)
    (l cp : ℚ) : Event :=
  { user_id := u, coin_id := coin, up := decide (cp > l), current_price := cp,
    last_price := l, change_percent := |(cp - l) / l| * 100,
    threshold := effective_threshold thresholds dflt u }

/-- Inner alert loop of check_prices for one coin with an established
nonzero baseline l and current price cp: every subscriber monitoring the
coin whose effective threshold is reached receives an event, in
subscriber-list order. -/
def coinAlerts (subscribers : List Int) (coinsubs : List (Int × List String))
    (thresholds : List (Int × ℚ)) (dflt : ℚ) (coin : String) (l cp : ℚ) : List Event :=
  subscribers.filterMap fun u =>
    if coin ∈ get_user_monitored_coins coinsubs u then
      if |(cp - l) / l| * 100 ≥ effective_threshold thresholds dflt u then
        some (mkEvent thresholds dflt u coin l cp)
      else none
    else none

/-- Body of the per-coin loop of check_prices: skip coins missing from
the fetched batch; evaluate alerts only when the stored last price is
present and nonzero (the Python guard is the truthiness test
if last_price:); then unconditionally record the current price. -/
def coinStep (subscribers : List Int) (coinsubs : List (Int × List String))
    (thresholds : List (Int × ℚ)) (dflt : ℚ) (current : List (String × ℚ))
    (acc : List (String × ℚ) × List Event) (coin : String) :
    List (String × ℚ) × List Event :=
  match alookup current coin with
  | none => acc
  | some cp =>
    let evs :=
      match alookup acc.1 coin with
      | some l =>
        if l = 0 then acc.2
        else acc.2 ++ coinAlerts subscribers coinsubs thresholds dflt coin l cp
      | none => acc.2
    (aupsert acc.1 coin cp, evs)

/-- Outcome of one poll cycle: whether the batched fetch was invoked,
the emitted events in order, the in-memory last_prices table at the end
of the cycle, and whether storage.save_last_prices was called. -/
structure CycleResult where
  fetched : Bool
  events : List Event
  last_prices : List (String × ℚ)
  saved : Bool
deriving DecidableEq

/-- alerts.check_prices: compute the union of monitored coins, end the
cycle immediately when it is empty, otherwise fetch the batch once,
run the per-coin loop and persist the last_prices table. -/
def check_prices (subscribers : List Int) (coinsubs : List (Int × List String))
    (thresholds : List (Int × ℚ)) (dflt : ℚ) (last_prices : List (String × ℚ))
    (fetch : List String → List (String × ℚ)) : CycleResult :=
  let monitored := monitored_coins subscribers coinsubs
  if monitored = [] then
    { fetched := false, events := [], last_prices := last_prices, saved := false }
  else
    let current := fetch monitored
    let r := monitored.foldl (coinStep subscribers coinsubs thresholds dflt current)
      (last_prices, [])
    { fetched := true, events := r.2, last_prices := r.1, saved := true }

/-- Events that the per-coin loop of check_prices produces for one coin
when the last-price table read at that moment is lp0: nothing when the
coin is missing from the fetched batch, nothing when the stored last
price is absent or zero, the inner alert fan-out otherwise. -/
def coinCycleEvents (subscribers : List Int) (coinsubs : List (Int × List String))
    (thresholds : List (Int × ℚ)) (dflt : ℚ) (current lp0 : List (String × ℚ))
    (coin : String) : List Event :=
  match alookup current coin with
  | none => []
  | some cp =>
    match alookup lp0 coin with
    | some l =>
      if l = 0 then []
      else coinAlerts subscribers coinsubs thresholds dflt coin l cp
    | none => []

/-- Concatenation of the image lists of a function over a list, used to
describe the events of a whole cycle coin by coin. -/
def catMap {α β : Type} (f : α → List β) : List α → List β
  | [] => []
  | a :: t => f a ++ catMap f t

/-- World reached by Scenario C of the specification: subscribe user 7,
watch the coin btc, set a custom threshold of 3 percent, starting from
an empty process state and an empty persisted document. -/
def scenarioC_world : World :=
  (set_user_alert_threshold
    (add_coin_to_user_subscription
      (add_subscriber ⟨[], [], [], ⟨[], [], [], []⟩⟩ 7).2 7 "btc").2 7 3).2

theorem alookup_aupsert_self {α β : Type} [DecidableEq α] (l : List (α × β)) (k : α) (v : β) :
    alookup (aupsert l k v) k = some v := by
  induction l with
  | nil => simp [alookup, aupsert]
  | cons p t ih =>
    by_cases h : p.1 = k
    · simp [alookup, aupsert, h]
    · simpa [alookup, aupsert, h] using ih

theorem alookup_aupsert_ne {α β : Type} [DecidableEq α] (l : List (α × β)) (k a : α) (v : β)
    (h : a ≠ k) : alookup (aupsert l k v) a = alookup l a := by
  have hka : ¬(k = a) := fun he => h he.symm
  induction l with
  | nil => simp [alookup, aupsert, hka]
  | cons p t ih =>
    by_cases hk : p.1 = k
    · subst hk
      simp [alookup, aupsert, hka]
    · by_cases ha : p.1 = a <;> simp [alookup, aupsert, hk, ha, ih, h]

theorem aupsert_eq_self {α β : Type} [DecidableEq α] (l : List (α × β)) (k : α) (v : β)
    (h : alookup l k = some v) : aupsert l k v = l := by
  induction l with
  | nil => simp [alookup] at h
  | cons p t ih =>
    by_cases hk : p.1 = k
    · simp [alookup, hk] at h
      cases p
      simp_all [aupsert]
    · simp [alookup, hk] at h
      simp [aupsert, hk, ih h]

theorem alookup_fst_of_keysNodup {α β : Type} [DecidableEq α] (l : List (α × β))
    (h : keysNodup l) : ∀ p ∈ l, alookup l p.1 = some p.2 := by
  induction l with
  | nil => intro p hp; simp at hp
  | cons q t ih =>
    intro p hp
    have hnd : q.1 ∉ t.map Prod.fst ∧ keysNodup t := by
      simpa [keysNodup] using h
    rw [List.mem_cons] at hp
    rcases hp with rfl | hp
    · simp [alookup]
    · have hne : q.1 ≠ p.1 := by
        intro he
        exact hnd.1 (he ▸ List.mem_map_of_mem Prod.fst hp)
      simp [alookup, hne, ih hnd.2 p hp]

theorem mem_addMonitored (acc l : List String) (c : String) :
    c ∈ addMonitored acc l ↔ c ∈ acc ∨ c ∈ l := by
  induction l generalizing acc with
  | nil => simp [addMonitored]
  | cons a t ih =>
    show c ∈ addMonitored (if a ∈ acc then acc else acc ++ [a]) t ↔ _
    rw [ih]
    by_cases ha : a ∈ acc
    · simp [ha]
      constructor
      · rintro (h | h)
        · exact Or.inl h
        · exact Or.inr (Or.inr h)
      · rintro (h | h | h)
        · exact Or.inl h
        · exact Or.inl (h ▸ ha)
        · exact Or.inr h
    · simp [ha, or_assoc]

theorem nodup_addMonitored (acc l : List String) (h : acc.Nodup) :
    (addMonitored acc l).Nodup := by
  induction l generalizing acc with
  | nil => exact h
  | cons a t ih =>
    show (addMonitored (if a ∈ acc then acc else acc ++ [a]) t).Nodup
    by_cases ha : a ∈ acc
    · rw [if_pos ha]; exact ih acc h
    · rw [if_neg ha]
      refine ih (acc ++ [a]) ?_
      simp [List.nodup_append, h, ha]

theorem monitored_coins_nodup (subscribers : List Int)
    (coinsubs : List (Int × List String)) : (monitored_coins subscribers coinsubs).Nodup := by
  have aux : ∀ (us : List Int) (acc : List String), acc.Nodup →
      (us.foldl (fun acc u => addMonitored acc (get_user_monitored_coins coinsubs u)) acc).Nodup := by
    intro us
    induction us with
    | nil => intro acc h; exact h
    | cons u t ih =>
      intro acc h
      exact ih _ (nodup_addMonitored _ _ h)
  exact aux subscribers [] List.nodup_nil

theorem mem_monitored_coins (subscribers : List Int) (coinsubs : List (Int × List String))
    (c : String) :
    c ∈ monitored_coins subscribers coinsubs ↔
      ∃ u ∈ subscribers, c ∈ get_user_monitored_coins coinsubs u := by
  have aux : ∀ (us : List Int) (acc : List String),
      c ∈ us.foldl (fun acc u => addMonitored acc (get_user_monitored_coins coinsubs u)) acc ↔
        c ∈ acc ∨ ∃ u ∈ us, c ∈ get_user_monitored_coins coinsubs u := by
    intro us
    induction us with
    | nil => intro acc; simp
    | cons u t ih =>
      intro acc
      show c ∈ t.foldl _ (addMonitored acc (get_user_monitored_coins coinsubs u)) ↔ _
      rw [ih, mem_addMonitored]
      simp [or_assoc]
  simpa using aux subscribers []

theorem mem_catMap {α β : Type} (f : α → List β) (l : List α) (b : β) :
    b ∈ catMap f l ↔ ∃ a ∈ l, b ∈ f a := by
  induction l with
  | nil => simp [catMap]
  | cons a t ih => simp [catMap, ih]

theorem catMap_congr {α β : Type} (f g : α → List β) (l : List α)
    (h : ∀ a ∈ l, f a = g a) : catMap f l = catMap g l := by
  induction l with
  | nil => rfl
  | cons a t ih =>
    simp only [catMap, h a (List.mem_cons_self a t)]
    rw [ih fun x hx => h x (List.mem_cons_of_mem a hx)]

theorem coinCycleEvents_congr (S : List Int) (C : List (Int × List String))
    (T : List (Int × ℚ)) (d : ℚ) (cur lp1 lp0 : List (String × ℚ)) (coin : String)
    (h : alookup lp1 coin = alookup lp0 coin) :
    coinCycleEvents S C T d cur lp1 coin = coinCycleEvents S C T d cur lp0 coin := by
  unfold coinCycleEvents
  rw [h]

theorem foldl_coinStep_snd (S : List Int) (C : List (Int × List String))
    (T : List (Int × ℚ)) (d : ℚ) (cur : List (String × ℚ)) :
    ∀ (cs : List String) (lp0 : List (String × ℚ)) (evs0 : List Event), cs.Nodup →
      (cs.foldl (coinStep S C T d cur) (lp0, evs0)).2 =
        evs0 ++ catMap (coinCycleEvents S C T d cur lp0) cs := by
  intro cs
  induction cs with
  | nil => intro lp0 evs0 _; simp [catMap]
  | cons c t ih =>
    intro lp0 evs0 hnd
    rw [List.nodup_cons] at hnd
    rw [List.foldl_cons]
    rcases hcur : alookup cur c with _ | cp
    · have hstep : coinStep S C T d cur (lp0, evs0) c = (lp0, evs0) := by
        simp [coinStep, hcur]
      have hnil : coinCycleEvents S C T d cur lp0 c = [] := by
        simp [coinCycleEvents, hcur]
      rw [hstep, ih lp0 evs0 hnd.2, catMap, hnil, List.nil_append]
    · have hstep : coinStep S C T d cur (lp0, evs0) c =
          (aupsert lp0 c cp, evs0 ++ coinCycleEvents S C T d cur lp0 c) := by
        rcases hl : alookup lp0 c with _ | l
        · simp [coinStep, coinCycleEvents, hcur, hl]
        · by_cases h0 : l = 0 <;> simp [coinStep, coinCycleEvents, hcur, hl, h0]
      have hcg : catMap (coinCycleEvents S C T d cur (aupsert lp0 c cp)) t =
          catMap (coinCycleEvents S C T d cur lp0) t := by
        apply catMap_congr
        intro x hx
        apply coinCycleEvents_congr
        exact alookup_aupsert_ne lp0 c x cp (fun he => hnd.1 (he ▸ hx))
      rw [hstep, ih _ _ hnd.2, hcg, catMap, List.append_assoc]

theorem foldl_coinStep_lookup (S : List Int) (C : List (Int × List String))
    (T : List (Int × ℚ)) (d : ℚ) (cur : List (String × ℚ)) :
    ∀ (cs : List String) (lp0 : List (String × ℚ)) (evs0 : List Event) (c : String),
      alookup (cs.foldl (coinStep S C T d cur) (lp0, evs0)).1 c =
        if c ∈ cs ∧ (alookup cur c).isSome then alookup cur c else alookup lp0 c := by
  intro cs
  induction cs with
  | nil => intro lp0 evs0 c; simp
  | cons a t ih =>
    intro lp0 evs0 c
    rw [List.foldl_cons]
    rcases hcur : alookup cur a with _ | cp
    · have hstep : coinStep S C T d cur (lp0, evs0) a = (lp0, evs0) := by
        simp [coinStep, hcur]
      rw [hstep, ih lp0 evs0 c]
      by_cases hac : c = a
      · subst hac
        simp [hcur]
      · simp [hac]
    · have hfst : (coinStep S C T d cur (lp0, evs0) a).1 = aupsert lp0 a cp := by
        rcases hl : alookup lp0 a with _ | l
        · simp [coinStep, hcur, hl]
        · by_cases h0 : l = 0 <;> simp [coinStep, hcur, hl, h0]
      rcases hsp : coinStep S C T d cur (lp0, evs0) a with ⟨lp1, evs1⟩
      have hlp1 : lp1 = aupsert lp0 a cp := by
        rw [← hfst, hsp]
      rw [hsp] at *
      rw [ih lp1 evs1 c, hlp1]
      by_cases hac : c = a
      · subst hac
        by_cases hct : c ∈ t <;>
          simp [hct, hcur, alookup_aupsert_self]
      · rw [alookup_aupsert_ne lp0 a c cp hac]
        simp [hac]

theorem foldl_coinStep_nil_current (S : List Int) (C : List (Int × List String))
    (T : List (Int × ℚ)) (d : ℚ) :
    ∀ (cs : List String) (lp0 : List (String × ℚ)) (evs0 : List Event),
      cs.foldl (coinStep S C T d []) (lp0, evs0) = (lp0, evs0) := by
  intro cs
  induction cs with
  | nil => intro lp0 evs0; rfl
  | cons a t ih =>
    intro lp0 evs0
    rw [List.foldl_cons]
    have hstep : coinStep S C T d [] (lp0, evs0) a = (lp0, evs0) := by
      simp [coinStep, alookup]
    rw [hstep, ih]

theorem mem_coinAlerts (S : List Int) (C : List (Int × List String))
    (T : List (Int × ℚ)) (d : ℚ) (coin : String) (l cp : ℚ) (e : Event) :
    e ∈ coinAlerts S C T d coin l cp ↔
      ∃ u, u ∈ S ∧ coin ∈ get_user_monitored_coins C u ∧
        effective_threshold T d u ≤ |(cp - l) / l| * 100 ∧
        e = mkEvent T d u coin l cp := by
  unfold coinAlerts
  rw [List.mem_filterMap]
  constructor
  · rintro ⟨u, hu, hf⟩
    by_cases h1 : coin ∈ get_user_monitored_coins C u
    · rw [if_pos h1] at hf
      by_cases h2 : |(cp - l) / l| * 100 ≥ effective_threshold T d u
      · rw [if_pos h2] at hf
        exact ⟨u, hu, h1, h2, (Option.some.inj hf).symm⟩
      · rw [if_neg h2] at hf; simp at hf
    · rw [if_neg h1] at hf; simp at hf
  · rintro ⟨u, hu, h1, h2, rfl⟩
    exact ⟨u, hu, by rw [if_pos h1, if_pos h2]⟩

theorem check_prices_empty (S : List Int) (C : List (Int × List String))
    (T : List (Int × ℚ)) (d : ℚ) (lp : List (String × ℚ))
    (fetch : List String → List (String × ℚ)) (hm : monitored_coins S C = []) :
    check_prices S C T d lp fetch =
      { fetched := false, events := [], last_prices := lp, saved := false } := by
  simp [check_prices, hm]

theorem check_prices_run (S : List Int) (C : List (Int × List String))
    (T : List (Int × ℚ)) (d : ℚ) (lp : List (String × ℚ))
    (fetch : List String → List (String × ℚ)) (hm : ¬ monitored_coins S C = []) :
    check_prices S C T d lp fetch =
      { fetched := true,
        events := ((monitored_coins S C).foldl
          (coinStep S C T d (fetch (monitored_coins S C))) (lp, [])).2,
        last_prices := ((monitored_coins S C).foldl
          (coinStep S C T d (fetch (monitored_coins S C))) (lp, [])).1,
        saved := true } := by
  simp [check_prices, hm]

theorem mem_check_prices_events (S : List Int) (C : List (Int × List String))
    (T : List (Int × ℚ)) (d : ℚ) (lp : List (String × ℚ))
    (fetch : List String → List (String × ℚ)) (e : Event) :
    e ∈ (check_prices S C T d lp fetch).events ↔
      ∃ coin cp l u,
        coin ∈ monitored_coins S C ∧
        alookup (fetch (monitored_coins S C)) coin = some cp ∧
        alookup lp coin = some l ∧ l ≠ 0 ∧
        u ∈ S ∧ coin ∈ get_user_monitored_coins C u ∧
        effective_threshold T d u ≤ |(cp - l) / l| * 100 ∧
        e = mkEvent T d u coin l cp := by
  by_cases hm : monitored_coins S C = []
  · rw [check_prices_empty S C T d lp fetch hm]
    simp [hm]
  · rw [check_prices_run S C T d lp fetch hm]
    show e ∈ ((monitored_coins S C).foldl _ (lp, [])).2 ↔ _
    rw [foldl_coinStep_snd S C T d (fetch (monitored_coins S C)) (monitored_coins S C) lp []
      (monitored_coins_nodup S C), List.nil_append, mem_catMap]
    constructor
    · rintro ⟨coin, hcoin, he⟩
      unfold coinCycleEvents at he
      rcases hcur : alookup (fetch (monitored_coins S C)) coin with _ | cp
      · rw [hcur] at he; simp at he
      · rw [hcur] at he
        rcases hl : alookup lp coin with _ | l
        · rw [hl] at he; simp at he
        · rw [hl] at he
          dsimp only at he
          by_cases h0 : l = 0
          · rw [if_pos h0] at he; simp at he
          · rw [if_neg h0] at he
            rcases (mem_coinAlerts S C T d coin l cp e).mp he with ⟨u, hu, h1, h2, rfl⟩
            exact ⟨coin, cp, l, u, hcoin, hcur, hl, h0, hu, h1, h2, rfl⟩
    · rintro ⟨coin, cp, l, u, hcoin, hcur, hl, h0, hu, h1, h2, rfl⟩
      refine ⟨coin, hcoin, ?_⟩
      unfold coinCycleEvents
      rw [hcur, hl]
      dsimp only
      rw [if_neg h0]
      exact (mem_coinAlerts S C T d coin l cp _).mpr ⟨u, hu, h1, h2, rfl⟩

theorem save_user_threshold_self (d : StoreDoc) (u : Int) (t : ℚ)
    (h : alookup d.user_alert_thresholds u = some t) :
    save_user_threshold u t d = d := by
  unfold save_user_threshold
  rw [aupsert_eq_self _ _ _ h]

theorem save_user_coin_subscriptions_self (d : StoreDoc) (u : Int) (cs : List String)
    (h : alookup d.user_coin_subscriptions u = some cs) :
    save_user_coin_subscriptions u cs d = d := by
  unfold save_user_coin_subscriptions
  rw [aupsert_eq_self _ _ _ h]

theorem save_all_thresholds_self (ts : List (Int × ℚ)) (d : StoreDoc)
    (h : ∀ p ∈ ts, alookup d.user_alert_thresholds p.1 = some p.2) :
    save_all_thresholds ts d = d := by
  induction ts with
  | nil => rfl
  | cons p t ih =>
    show save_all_thresholds t (save_user_threshold p.1 p.2 d) = d
    rw [save_user_threshold_self d p.1 p.2 (h p (List.mem_cons_self p t))]
    exact ih fun q hq => h q (List.mem_cons_of_mem p hq)

theorem save_all_coin_subscriptions_self (cs : List (Int × List String)) (d : StoreDoc)
    (h : ∀ p ∈ cs, alookup d.user_coin_subscriptions p.1 = some p.2) :
    save_all_coin_subscriptions cs d = d := by
  induction cs with
  | nil => rfl
  | cons p t ih =>
    show save_all_coin_subscriptions t (save_user_coin_subscriptions p.1 p.2 d) = d
    rw [save_user_coin_subscriptions_self d p.1 p.2 (h p (List.mem_cons_self p t))]
    exact ih fun q hq => h q (List.mem_cons_of_mem p hq)

theorem check_prices_records_price (S : List Int) (C : List (Int × List String))
    (T : List (Int × ℚ)) (d : ℚ) (lp : List (String × ℚ))
    (fetch : List String → List (String × ℚ)) (coin : String) (cp : ℚ)
    (hmem : coin ∈ monitored_coins S C)
    (hcur : alookup (fetch (monitored_coins S C)) coin = some cp) :
    alookup (check_prices S C T d lp fetch).last_prices coin = some cp := by
  have hm : ¬ monitored_coins S C = [] := by
    intro hh; rw [hh] at hmem; simp at hmem
  rw [check_prices_run S C T d lp fetch hm]
  show alookup ((monitored_coins S C).foldl _ (lp, [])).1 coin = some cp
  rw [foldl_coinStep_lookup S C T d (fetch (monitored_coins S C)) (monitored_coins S C)
    lp [] coin, if_pos ⟨hmem, by rw [hcur]; rfl⟩]
  exact hcur

/-- C1: evaluation of Scenario C on the embedded code. remove_subscriber
returns true and purges the removed user from the in-memory subscriber,
threshold and coin tables and from the persisted subscribers table, but
the persisted document keeps the removed user in both per-user tables,
because the resave loop only upserts the remaining entries and never
deletes the stale ones; this contradicts the no-trace property stated by
the claim, exposing a divergence between the code and its intent. -/
theorem remove_subscriber_persists_stale_entries :
    (remove_subscriber scenarioC_world 7).1 = true ∧
    (remove_subscriber scenarioC_world 7).2.subscribers = [] ∧
    (remove_subscriber scenarioC_world 7).2.user_alert_thresholds = [] ∧
    (remove_subscriber scenarioC_world 7).2.user_coin_subscriptions = [] ∧
    (remove_subscriber scenarioC_world 7).2.doc.subscribers = [] ∧
    alookup (remove_subscriber scenarioC_world 7).2.doc.user_alert_thresholds 7 = some 3 ∧
    alookup (remove_subscriber scenarioC_world 7).2.doc.user_coin_subscriptions 7 =
      some ["btc"] := by
  decide

/-- C2: when the batched price fetch fails for the whole batch, the empty
result map that crypto_api.get_multiple_prices returns from its exception
handler makes the cycle leave the last_prices table with exactly its
previous content and emit no notification. -/
theorem fetch_failure_cycle_unchanged (S : List Int) (C : List (Int × List String))
    (T : List (Int × ℚ)) (d : ℚ) (lp : List (String × ℚ)) :
    (check_prices S C T d lp fun _ => []).last_prices = lp ∧
    (check_prices S C T d lp fun _ => []).events = [] := by
  by_cases hm : monitored_coins S C = []
  · rw [check_prices_empty S C T d lp _ hm]
    exact ⟨rfl, rfl⟩
  · rw [check_prices_run S C T d lp _ hm]
    show (⟨true, ((monitored_coins S C).foldl (coinStep S C T d []) (lp, [])).2,
      ((monitored_coins S C).foldl (coinStep S C T d []) (lp, [])).1, true⟩ :
        CycleResult).last_prices = lp ∧ _
    rw [foldl_coinStep_nil_current S C T d (monitored_coins S C) lp []]
    exact ⟨rfl, rfl⟩

/-- C3: a coin with no recorded last price that receives a current price
in a cycle produces no event for that coin, and the fetched price is
recorded as its last price at the end of the cycle. -/
theorem first_observation_establishes_baseline (S : List Int)
    (C : List (Int × List String)) (T : List (Int × ℚ)) (d : ℚ)
    (lp : List (String × ℚ)) (fetch : List String → List (String × ℚ))
    (coin : String) (cp : ℚ)
    (hmem : coin ∈ monitored_coins S C)
    (hnone : alookup lp coin = none)
    (hcur : alookup (fetch (monitored_coins S C)) coin = some cp) :
    (∀ e ∈ (check_prices S C T d lp fetch).events, e.coin_id ≠ coin) ∧
    alookup (check_prices S C T d lp fetch).last_prices coin = some cp := by
  constructor
  · intro e he heq
    rcases (mem_check_prices_events S C T d lp fetch e).mp he with
      ⟨coin2, cp2, l2, u2, _, _, hl2, _, _, _, _, rfl⟩
    have hc : coin2 = coin := heq
    rw [hc, hnone] at hl2
    exact Option.noConfusion hl2
  · exact check_prices_records_price S C T d lp fetch coin cp hmem hcur

/-- C3 witness: a single subscriber watching one fresh coin observes the
first fetched price as the new baseline and receives no alert. -/
theorem first_observation_establishes_baseline_witness :
    (∀ e ∈ (check_prices [1] [(1, ["x"])] [] 5 [] fun _ => [("x", 100)]).events,
        e.coin_id ≠ "x") ∧
    alookup (check_prices [1] [(1, ["x"])] [] 5 [] fun _ => [("x", 100)]).last_prices "x" =
      some 100 :=
  first_observation_establishes_baseline [1] [(1, ["x"])] [] 5 []
    (fun _ => [("x", 100)]) "x" 100 (by decide) (by decide) (by decide)

/-- C4: with an established nonzero baseline, an absolute percentage
change exactly equal to the effective threshold of a watching subscriber
emits an event to that subscriber (the comparison is greater-or-equal),
while a change strictly below the threshold emits none to them. -/
theorem threshold_boundary_fires_at_equality (S : List Int)
    (C : List (Int × List String)) (T : List (Int × ℚ)) (d : ℚ)
    (lp : List (String × ℚ)) (fetch : List String → List (String × ℚ))
    (u : Int) (coin : String) (l cp : ℚ)
    (hu : u ∈ S) (hc : coin ∈ get_user_monitored_coins C u)
    (hl : alookup lp coin = some l) (h0 : l ≠ 0)
    (hcur : alookup (fetch (monitored_coins S C)) coin = some cp) :
    (|(cp - l) / l| * 100 = effective_threshold T d u →
      ∃ e ∈ (check_prices S C T d lp fetch).events, e.user_id = u ∧ e.coin_id = coin) ∧
    (|(cp - l) / l| * 100 < effective_threshold T d u →
      ∀ e ∈ (check_prices S C T d lp fetch).events, ¬(e.user_id = u ∧ e.coin_id = coin)) := by
  have hmem : coin ∈ monitored_coins S C := (mem_monitored_coins S C coin).mpr ⟨u, hu, hc⟩
  constructor
  · intro heq
    refine ⟨mkEvent T d u coin l cp, ?_, rfl, rfl⟩
    exact (mem_check_prices_events S C T d lp fetch _).mpr
      ⟨coin, cp, l, u, hmem, hcur, hl, h0, hu, hc, le_of_eq heq.symm, rfl⟩
  · rintro hlt e he ⟨heu, hec⟩
    rcases (mem_check_prices_events S C T d lp fetch e).mp he with
      ⟨coin2, cp2, l2, u2, _, hcur2, hl2, _, _, _, h22, rfl⟩
    have hc2 : coin2 = coin := hec
    have hu2 : u2 = u := heu
    subst hc2; subst hu2
    rw [hcur] at hcur2
    rw [hl] at hl2
    have hcp : cp2 = cp := Option.some.inj hcur2.symm
    have hl2e : l2 = l := Option.some.inj hl2.symm
    subst hcp; subst hl2e
    exact absurd h22 (not_le.mpr hlt)

/-- C4 witness: a 5 percent move against a 5 percent effective threshold
fires exactly at the boundary. -/
theorem threshold_boundary_fires_at_equality_witness :
    ∃ e ∈ (check_prices [1] [(1, ["x"])] [] 5 [("x", 100)] fun _ => [("x", 105)]).events,
      e.user_id = 1 ∧ e.coin_id = "x" :=
  (threshold_boundary_fires_at_equality [1] [(1, ["x"])] [] 5 [("x", 100)]
    (fun _ => [("x", 105)]) 1 "x" 100 105 (by decide) (by decide) (by decide)
    (by decide) (by decide)).1
    (by
      have h5 : effective_threshold [] (5 : ℚ) 1 = 5 := rfl
      rw [h5, abs_of_nonneg (by norm_num : (0 : ℚ) ≤ (105 - 100) / 100)]
      norm_num)

/-- C5: an event is emitted in a cycle exactly for the tuples where the
coin is monitored, has a fetched current price and a nonzero recorded
last price, and the user subscribes, watches the coin and has effective
threshold at most the absolute percentage change; the emitted event
carries direction up exactly when the current price strictly exceeds the
last one, so of two watchers with thresholds on opposite sides of the
change only the lower-threshold one is notified. -/
theorem check_prices_event_characterization (S : List Int)
    (C : List (Int × List String)) (T : List (Int × ℚ)) (d : ℚ)
    (lp : List (String × ℚ)) (fetch : List String → List (String × ℚ)) (e : Event) :
    e ∈ (check_prices S C T d lp fetch).events ↔
      ∃ coin cp l u,
        coin ∈ monitored_coins S C ∧
        alookup (fetch (monitored_coins S C)) coin = some cp ∧
        alookup lp coin = some l ∧ l ≠ 0 ∧
        u ∈ S ∧ coin ∈ get_user_monitored_coins C u ∧
        effective_threshold T d u ≤ |(cp - l) / l| * 100 ∧
        e = { user_id := u, coin_id := coin, up := decide (cp > l),
              current_price := cp, last_price := l,
              change_percent := |(cp - l) / l| * 100,
              threshold := effective_threshold T d u } :=
  mem_check_prices_events S C T d lp fetch e

/-- C6: a user whose watch entry is absent or empty has an empty
monitored-coin list, and no cycle ever emits an event to that user,
whatever the price movements are. -/
theorem empty_watchset_never_notified (S : List Int) (C : List (Int × List String))
    (T : List (Int × ℚ)) (d : ℚ) (lp : List (String × ℚ))
    (fetch : List String → List (String × ℚ)) (u : Int)
    (h : alookup C u = none ∨ alookup C u = some []) :
    get_user_monitored_coins C u = [] ∧
    ∀ e ∈ (check_prices S C T d lp fetch).events, e.user_id ≠ u := by
  have hg : get_user_monitored_coins C u = [] := by
    rcases h with h | h <;> simp [get_user_monitored_coins, h]
  refine ⟨hg, ?_⟩
  intro e he heq
  rcases (mem_check_prices_events S C T d lp fetch e).mp he with
    ⟨coin2, cp2, l2, u2, _, _, _, _, _, h12, _, rfl⟩
  have hu : u2 = u := heq
  rw [hu, hg] at h12
  simp at h12

/-- C6 witness: user 2 subscribes but watches nothing; a large move of a
coin watched by user 1 produces no event for user 2. -/
theorem empty_watchset_never_notified_witness :
    get_user_monitored_coins [(1, ["x"])] 2 = [] ∧
    ∀ e ∈ (check_prices [1, 2] [(1, ["x"])] [] 1 [("x", 100)]
        fun _ => [("x", 200)]).events, e.user_id ≠ 2 :=
  empty_watchset_never_notified [1, 2] [(1, ["x"])] [] 1 [("x", 100)]
    (fun _ => [("x", 200)]) 2 (Or.inl (by decide))

/-- C7: when the union of watched assets over all subscribers is empty,
the whole cycle is skipped: no fetch happens, no event is emitted, the
last-prices table is untouched and no persistence write occurs. -/
theorem no_monitored_coins_skips_cycle (S : List Int) (C : List (Int × List String))
    (T : List (Int × ℚ)) (d : ℚ) (lp : List (String × ℚ))
    (fetch : List String → List (String × ℚ))
    (h : monitored_coins S C = []) :
    check_prices S C T d lp fetch =
      { fetched := false, events := [], last_prices := lp, saved := false } :=
  check_prices_empty S C T d lp fetch h

/-- C7 witness: one subscriber with an empty watch list makes the cycle
skip entirely even though the fetch function would deliver a price. -/
theorem no_monitored_coins_skips_cycle_witness :
    check_prices [1] [(1, [])] [] 5 [("x", 100)] (fun _ => [("x", 200)]) =
      { fetched := false, events := [], last_prices := [("x", 100)], saved := false } :=
  no_monitored_coins_skips_cycle [1] [(1, [])] [] 5 [("x", 100)]
    (fun _ => [("x", 200)]) (by decide)

/-- C8: for each of the four logical tables of the persisted document,
saving the value returned by load back through the save path of that
table leaves the loaded content unchanged: whole-table replacement for
subscribers and last prices, entry-wise resaving for the two per-user
tables, whose dict-shaped key sets make every upsert a no-op. -/
theorem save_after_load_roundtrip (doc : StoreDoc)
    (hth : keysNodup doc.user_alert_thresholds)
    (hcs : keysNodup doc.user_coin_subscriptions) :
    load_subscribers (save_subscribers (load_subscribers doc) doc) = load_subscribers doc ∧
    load_last_prices (save_last_prices (load_last_prices doc) doc) = load_last_prices doc ∧
    load_user_thresholds (save_all_thresholds (load_user_thresholds doc) doc) =
      load_user_thresholds doc ∧
    load_user_coin_subscriptions
        (save_all_coin_subscriptions (load_user_coin_subscriptions doc) doc) =
      load_user_coin_subscriptions doc := by
  refine ⟨rfl, rfl, ?_, ?_⟩
  · show load_user_thresholds (save_all_thresholds doc.user_alert_thresholds doc) =
      load_user_thresholds doc
    rw [save_all_thresholds_self _ doc (alookup_fst_of_keysNodup _ hth)]
  · show load_user_coin_subscriptions
        (save_all_coin_subscriptions doc.user_coin_subscriptions doc) =
      load_user_coin_subscriptions doc
    rw [save_all_coin_subscriptions_self _ doc (alookup_fst_of_keysNodup _ hcs)]

/-- C8 witness: the round trip evaluated on a concrete document holding
one subscriber, one threshold, one watch list and one last price. -/
theorem save_after_load_roundtrip_witness :
    load_subscribers (save_subscribers
        (load_subscribers ⟨[7], [(7, 3)], [(7, ["btc"])], [("btc", 100)]⟩)
        ⟨[7], [(7, 3)], [(7, ["btc"])], [("btc", 100)]⟩) =
      load_subscribers ⟨[7], [(7, 3)], [(7, ["btc"])], [("btc", 100)]⟩ ∧
    load_last_prices (save_last_prices
        (load_last_prices ⟨[7], [(7, 3)], [(7, ["btc"])], [("btc", 100)]⟩)
        ⟨[7], [(7, 3)], [(7, ["btc"])], [("btc", 100)]⟩) =
      load_last_prices ⟨[7], [(7, 3)], [(7, ["btc"])], [("btc", 100)]⟩ ∧
    load_user_thresholds (save_all_thresholds
        (load_user_thresholds ⟨[7], [(7, 3)], [(7, ["btc"])], [("btc", 100)]⟩)
        ⟨[7], [(7, 3)], [(7, ["btc"])], [("btc", 100)]⟩) =
      load_user_thresholds ⟨[7], [(7, 3)], [(7, ["btc"])], [("btc", 100)]⟩ ∧
    load_user_coin_subscriptions (save_all_coin_subscriptions
        (load_user_coin_subscriptions ⟨[7], [(7, 3)], [(7, ["btc"])], [("btc", 100)]⟩)
        ⟨[7], [(7, 3)], [(7, ["btc"])], [("btc", 100)]⟩) =
      load_user_coin_subscriptions ⟨[7], [(7, 3)], [(7, ["btc"])], [("btc", 100)]⟩ :=
  save_after_load_roundtrip ⟨[7], [(7, 3)], [(7, ["btc"])], [("btc", 100)]⟩
    (by unfold keysNodup; decide) (by unfold keysNodup; decide)

/-- C9: adding a watched asset that the user does not yet watch returns
true and records the extended watch list both in memory and in the
persisted document (creating the missing entry for an unknown user), and
an immediate second identical call returns false and changes nothing. -/
theorem add_watched_asset_idempotent (w : World) (u : Int) (a : String)
    (h : a ∉ (alookup w.user_coin_subscriptions u).getD []) :
    (add_coin_to_user_subscription w u a).1 = true ∧
    (add_coin_to_user_subscription (add_coin_to_user_subscription w u a).2 u a).1 = false ∧
    (add_coin_to_user_subscription (add_coin_to_user_subscription w u a).2 u a).2 =
      (add_coin_to_user_subscription w u a).2 ∧
    alookup (add_coin_to_user_subscription w u a).2.user_coin_subscriptions u =
      some ((alookup w.user_coin_subscriptions u).getD [] ++ [a]) ∧
    alookup (add_coin_to_user_subscription w u a).2.doc.user_coin_subscriptions u =
      some ((alookup w.user_coin_subscriptions u).getD [] ++ [a]) := by
  rcases hcase : alookup w.user_coin_subscriptions u with _ | l
  · have h1 : add_coin_to_user_subscription w u a =
        (true, { w with
          user_coin_subscriptions := aupsert (aupsert w.user_coin_subscriptions u []) u [a],
          doc := save_user_coin_subscriptions u [a] w.doc }) := by
      simp [add_coin_to_user_subscription, hcase, alookup_aupsert_self]
    have h2 : add_coin_to_user_subscription (add_coin_to_user_subscription w u a).2 u a =
        (false, (add_coin_to_user_subscription w u a).2) := by
      rw [h1]
      simp [add_coin_to_user_subscription, alookup_aupsert_self]
    refine ⟨by rw [h1], by rw [h2], by rw [h2], ?_, ?_⟩
    · rw [h1]
      simp [alookup_aupsert_self]
    · rw [h1]
      simp [save_user_coin_subscriptions, alookup_aupsert_self]
  · rw [hcase] at h
    simp only [Option.getD_some] at h
    have h1 : add_coin_to_user_subscription w u a =
        (true, { w with
          user_coin_subscriptions := aupsert w.user_coin_subscriptions u (l ++ [a]),
          doc := save_user_coin_subscriptions u (l ++ [a]) w.doc }) := by
      simp [add_coin_to_user_subscription, hcase, h]
    have h2 : add_coin_to_user_subscription (add_coin_to_user_subscription w u a).2 u a =
        (false, (add_coin_to_user_subscription w u a).2) := by
      rw [h1]
      simp [add_coin_to_user_subscription, alookup_aupsert_self]
    refine ⟨by rw [h1], by rw [h2], by rw [h2], ?_, ?_⟩
    · rw [h1]
      simp [alookup_aupsert_self]
    · rw [h1]
      simp [save_user_coin_subscriptions, alookup_aupsert_self]

/-- C9 witness: user 5 adds btc for the first time starting from an empty
watch table; the second call is a no-op returning false. -/
theorem add_watched_asset_idempotent_witness :
    (add_coin_to_user_subscription ⟨[5], [], [], ⟨[5], [], [], []⟩⟩ 5 "btc").1 = true ∧
    (add_coin_to_user_subscription
      (add_coin_to_user_subscription ⟨[5], [], [], ⟨[5], [], [], []⟩⟩ 5 "btc").2 5 "btc").1 =
        false ∧
    (add_coin_to_user_subscription
      (add_coin_to_user_subscription ⟨[5], [], [], ⟨[5], [], [], []⟩⟩ 5 "btc").2 5 "btc").2 =
      (add_coin_to_user_subscription ⟨[5], [], [], ⟨[5], [], [], []⟩⟩ 5 "btc").2 ∧
    alookup (add_coin_to_user_subscription
        ⟨[5], [], [], ⟨[5], [], [], []⟩⟩ 5 "btc").2.user_coin_subscriptions 5 =
      some ((alookup (⟨[5], [], [], ⟨[5], [], [], []⟩⟩ :
        World).user_coin_subscriptions 5).getD [] ++ ["btc"]) ∧
    alookup (add_coin_to_user_subscription
        ⟨[5], [], [], ⟨[5], [], [], []⟩⟩ 5 "btc").2.doc.user_coin_subscriptions 5 =
      some ((alookup (⟨[5], [], [], ⟨[5], [], [], []⟩⟩ :
        World).user_coin_subscriptions 5).getD [] ++ ["btc"]) :=
  add_watched_asset_idempotent ⟨[5], [], [], ⟨[5], [], [], []⟩⟩ 5 "btc" (by decide)

/-- C10: an asset whose stored last price is zero is treated exactly like
one with no baseline: the truthiness guard skips alert evaluation for it,
so the percentage-change division is never evaluated against a zero last
price, no event names the asset, and the fetched price is still recorded
at the end of the cycle. -/
theorem zero_last_price_skips_evaluation (S : List Int) (C : List (Int × List String))
    (T : List (Int × ℚ)) (d : ℚ) (lp : List (String × ℚ))
    (fetch : List String → List (String × ℚ)) (coin : String)
    (h : alookup lp coin = some 0 ∨ alookup lp coin = none) :
    (∀ e ∈ (check_prices S C T d lp fetch).events, e.coin_id ≠ coin) ∧
    (∀ cp : ℚ, coin ∈ monitored_coins S C →
      alookup (fetch (monitored_coins S C)) coin = some cp →
      alookup (check_prices S C T d lp fetch).last_prices coin = some cp) := by
  constructor
  · intro e he heq
    rcases (mem_check_prices_events S C T d lp fetch e).mp he with
      ⟨coin2, cp2, l2, u2, _, _, hl2, h02, _, _, _, rfl⟩
    have hc : coin2 = coin := heq
    subst hc
    rcases h with h | h
    · rw [h] at hl2
      exact h02 (Option.some.inj hl2).symm
    · rw [h] at hl2
      exact Option.noConfusion hl2
  · intro cp hmem hcur
    exact check_prices_records_price S C T d lp fetch coin cp hmem hcur

/-- C10 witness: a coin stored at price zero emits nothing and gets the
fetched price recorded, exactly like a fresh baseline. -/
theorem zero_last_price_skips_evaluation_witness :
    (∀ e ∈ (check_prices [1] [(1, ["x"])] [] 5 [("x", 0)]
        fun _ => [("x", 50)]).events, e.coin_id ≠ "x") ∧
    alookup (check_prices [1] [(1, ["x"])] [] 5 [("x", 0)]
        fun _ => [("x", 50)]).last_prices "x" = some 50 :=
  ⟨(zero_last_price_skips_evaluation [1] [(1, ["x"])] [] 5 [("x", 0)]
      (fun _ => [("x", 50)]) "x" (Or.inl (by decide))).1,
    (zero_last_price_skips_evaluation [1] [(1, ["x"])] [] 5 [("x", 0)]
      (fun _ => [("x", 50)]) "x" (Or.inl (by decide))).2 50 (by decide) (by decide)⟩

end CryptoBot
